/-
Verification of the hotkey-driven recording core of the voice-dictation
desktop utility (`src/app/src-tauri/src/lib.rs` and
`src/app/src-tauri/src/commands/overlay.rs`).

Strings are modelled as lists of Unicode code points (`List Nat`);
`str::to_lowercase` is modelled at the ASCII level, which is the domain of
shortcut strings.  Rust's `str::replace` (leftmost, non-overlapping,
all occurrences) is modelled by `replaceList` below.
-/
import Mathlib

set_option autoImplicit false
set_option linter.unusedVariables false

namespace VoiceDictation

/-! ### String model -/

/-- Code points of a Lean string literal, used to write concrete inputs. -/
def strCp (s : String) : List Nat :=
  s.data.map Char.toNat

/-- ASCII model of `char` lowercasing as performed by `str::to_lowercase`. -/
def lowerNat (n : Nat) : Nat :=
  if 65 ≤ n ∧ n ≤ 90 then n + 32 else n

/-- Model of `str::to_lowercase` (line 44 of lib.rs). -/
def rustLower (s : List Nat) : List Nat :=
  s.map lowerNat

/-- Boolean test that `p` begins `s` (the matcher used by `str::replace`). -/
def isPfx : List Nat → List Nat → Bool
  | [], _ => true
  | _ :: _, [] => false
  | a :: p, b :: s => a == b && isPfx p s

/-- `p` begins `s`. -/
def pfx (p s : List Nat) : Prop :=
  ∃ t, p ++ t = s

/-- `p` ends `s`. -/
def sfx (p s : List Nat) : Prop :=
  ∃ t, t ++ p = s

/-- Boolean test that `p` ends `s`. -/
def isSfx (p s : List Nat) : Bool :=
  isPfx p.reverse s.reverse

/-- `w` occurs as a contiguous substring of `s`. -/
def occursIn (w s : List Nat) : Prop :=
  ∃ i, pfx w (s.drop i)

/-- Boolean version of `occursIn`. -/
def occursB (w : List Nat) : List Nat → Bool
  | [] => isPfx w []
  | c :: rest => isPfx w (c :: rest) || occursB w rest

/-- Fuelled model of Rust `str::replace pat → rep`: scan left to right,
replace every non-overlapping occurrence of `pat`.  The fuel dominates the
length of the remaining input; `replaceList` supplies enough fuel. -/
def replaceFuel (pat rep : List Nat) : Nat → List Nat → List Nat
  | _, [] => []
  | 0, s => s
  | n + 1, c :: rest =>
    if isPfx pat (c :: rest) then
      rep ++ replaceFuel pat rep n ((c :: rest).drop pat.length)
    else
      c :: replaceFuel pat rep n rest

/-- Model of `str::replace` for a nonempty pattern. -/
def replaceList (pat rep s : List Nat) : List Nat :=
  replaceFuel pat rep s.length s

def ctrlCp : List Nat := strCp "ctrl"
def controlCp : List Nat := strCp "control"
def cmdCp : List Nat := strCp "cmd"
def metaCp : List Nat := strCp "meta"
def winCp : List Nat := strCp "win"
def superCp : List Nat := strCp "super"

/-- Model of `normalize_shortcut_string` (lib.rs lines 43-49):
`s.to_lowercase().replace("ctrl","control").replace("cmd","super")
 .replace("meta","super").replace("win","super")`. -/
def normalize_shortcut_string (s : List Nat) : List Nat :=
  replaceList winCp superCp
    (replaceList metaCp superCp
      (replaceList cmdCp superCp
        (replaceList ctrlCp controlCp (rustLower s))))
/-! ### Idempotence of normalization -/

/-- Side conditions under which replacing some pattern by `rep` can neither
contain nor recreate the word `w`: `rep` does not contain `w`, no proper
tail of `w` begins `rep`, no proper head of `w` ends `rep`, and `w` is no
longer than `rep`.  All conditions are decidable. -/
abbrev SafeRep (w rep : List Nat) : Prop :=
  w ≠ [] ∧ w.length ≤ rep.length ∧ occursB w rep = false ∧
    (∀ j, j < w.length → 0 < j → isPfx (w.drop j) rep = false) ∧
    (∀ j, j < w.length → 0 < j → isSfx (w.take j) rep = false)

/-! ### Recording state machine (lib.rs lines 65-254)

Side effects are recorded as an event trace; the shared atomics become the
fields of `RecState`.  Each handler returns the new state and the trace of
the side effects it performed, in program order. -/

/-- Observable side effects of the handlers, in program order. -/
inductive Ev where
  | setRecording : Bool → Ev
  | playCue : Bool → Ev
  | sleep150 : Ev
  | muteAttempt : Ev
  | warnMuteFail : Ev
  | unmuteAttempt : Ev
  | warnUnmuteFail : Ev
  | emitStart : Ev
  | emitStop : Ev
  | logUnknown : Ev
  | pasteFire : Ev
  | typeText : List Nat → Ev
  | logTypeError : Ev
  | logNoHistory : Ev
deriving DecidableEq

/-- The audio-mute collaborator: whether its `mute`/`unmute` calls succeed. -/
structure MuteManager where
  muteOk : Bool
  unmuteOk : Bool
deriving DecidableEq

/-- The four atomic booleans of `AppState`. -/
structure RecState where
  toggle_key_held : Bool
  ptt_key_held : Bool
  paste_key_held : Bool
  is_recording : Bool
deriving DecidableEq

/-- `ShortcutState` of the global-shortcut plugin. -/
inductive KeyState where
  | pressed
  | released
deriving DecidableEq

/-- The settings snapshot read per event: sound / auto-mute flags, the
audio-mute collaborator, the history collaborator's reply to
`get_all(Some(1))`, whether text injection succeeds, and the three
validated role shortcut strings (pre-normalization). -/
structure Ctx where
  sound_enabled : Bool
  auto_mute_audio : Bool
  mgr : Option MuteManager
  history : Except Unit (List (List Nat))
  typeOk : Bool
  toggle_s : List Nat
  hold_s : List Nat
  paste_s : List Nat

/-- Model of `start_recording` (lib.rs lines 67-92): store `true` into
`is_recording`, play the start cue and sleep if sound is enabled, attempt
muting if enabled and the manager exists (failure only logged), then emit
`recording-start`. -/
def start_recording (st : RecState) (sound_enabled : Bool)
    (audio_mute_manager : Option MuteManager) (auto_mute_audio : Bool) :
    RecState × List Ev :=
  let st' := { st with is_recording := true }
  let cueEvs := if sound_enabled then [Ev.playCue true, Ev.sleep150] else []
  let muteEvs :=
    if auto_mute_audio then
      match audio_mute_manager with
      | some m => Ev.muteAttempt :: (if m.muteOk then [] else [Ev.warnMuteFail])
      | none => []
    else []
  (st', Ev.setRecording true :: (cueEvs ++ (muteEvs ++ [Ev.emitStart])))

/-- Model of `stop_recording` (lib.rs lines 96-118): store `false` into
`is_recording`, attempt unmuting if enabled and the manager exists (failure
only logged), play the stop cue if sound is enabled, then emit
`recording-stop`. -/
def stop_recording (st : RecState) (sound_enabled : Bool)
    (audio_mute_manager : Option MuteManager) (auto_mute_audio : Bool) :
    RecState × List Ev :=
  let st' := { st with is_recording := false }
  let unmuteEvs :=
    if auto_mute_audio then
      match audio_mute_manager with
      | some m =>
        Ev.unmuteAttempt :: (if m.unmuteOk then [] else [Ev.warnUnmuteFail])
      | none => []
    else []
  let cueEvs := if sound_enabled then [Ev.playCue false] else []
  (st', Ev.setRecording false :: (unmuteEvs ++ (cueEvs ++ [Ev.emitStop])))

/-- Toggle branch of `handle_shortcut_event` (lib.rs lines 168-197): press
arms the held flag; release fires when the flag was armed, starting or
stopping based on `is_recording` at that instant. -/
def toggle_branch (c : Ctx) (event : KeyState) (st : RecState) :
    RecState × List Ev :=
  match event with
  | .pressed => ({ st with toggle_key_held := true }, [])
  | .released =>
    let prev := st.toggle_key_held
    let st' := { st with toggle_key_held := false }
    if prev then
      if st'.is_recording then
        stop_recording st' c.sound_enabled c.mgr c.auto_mute_audio
      else
        start_recording st' c.sound_enabled c.mgr c.auto_mute_audio
    else (st', [])

/-- Hold branch of `handle_shortcut_event` (lib.rs lines 198-225): start on
the false-to-true edge of the held flag, stop on the true-to-false edge. -/
def hold_branch (c : Ctx) (event : KeyState) (st : RecState) :
    RecState × List Ev :=
  match event with
  | .pressed =>
    let prev := st.ptt_key_held
    let st' := { st with ptt_key_held := true }
    if prev then (st', [])
    else start_recording st' c.sound_enabled c.mgr c.auto_mute_audio
  | .released =>
    let prev := st.ptt_key_held
    let st' := { st with ptt_key_held := false }
    if prev then stop_recording st' c.sound_enabled c.mgr c.auto_mute_audio
    else (st', [])

/-- Events produced by the paste action proper (lib.rs lines 237-247):
fetch at most one history entry, inject it (injection failure logged), or
log that no entry exists; a failing fetch does nothing. -/
def pasteEvs (c : Ctx) : List Ev :=
  match c.history with
  | .ok entries =>
    match entries.head? with
    | some entry => Ev.typeText entry :: (if c.typeOk then [] else [Ev.logTypeError])
    | none => [Ev.logNoHistory]
  | .error _ => []

/-- PasteLast branch of `handle_shortcut_event` (lib.rs lines 226-250):
press arms the held flag, release fires the paste action when armed. -/
def paste_branch (c : Ctx) (event : KeyState) (st : RecState) :
    RecState × List Ev :=
  match event with
  | .pressed => ({ st with paste_key_held := true }, [])
  | .released =>
    let prev := st.paste_key_held
    let st' := { st with paste_key_held := false }
    if prev then (st', Ev.pasteFire :: pasteEvs c)
    else (st', [])

/-- Model of `handle_shortcut_event` (lib.rs lines 122-254): normalize the
event's shortcut string and the three configured strings, then dispatch to
the first matching role in the order Toggle, Hold, PasteLast; an
unrecognized shortcut is only logged. -/
def handle_shortcut_event (c : Ctx) (shortcut_s : List Nat) (event : KeyState)
    (st : RecState) : RecState × List Ev :=
  let shortcut_str := normalize_shortcut_string shortcut_s
  let toggle_shortcut_str := normalize_shortcut_string c.toggle_s
  let hold_shortcut_str := normalize_shortcut_string c.hold_s
  let paste_last_shortcut_str := normalize_shortcut_string c.paste_s
  if shortcut_str = toggle_shortcut_str then toggle_branch c event st
  else if shortcut_str = hold_shortcut_str then hold_branch c event st
  else if shortcut_str = paste_last_shortcut_str then paste_branch c event st
  else (st, [Ev.logUnknown])

/-- Process a sequence of key events for one shortcut, concatenating the
side-effect traces. -/
def runEvents (c : Ctx) (shortcut_s : List Nat) :
    List KeyState → RecState → RecState × List Ev
  | [], st => (st, [])
  | e :: rest, st =>
    let r1 := handle_shortcut_event c shortcut_s e st
    let r2 := runEvents c shortcut_s rest r1.1
    (r2.1, r1.2 ++ r2.2)

/-- Number of occurrences of an event in a trace. -/
def countEv (e : Ev) : List Ev → Nat
  | [] => 0
  | x :: l => (if x = e then 1 else 0) + countEv e l

/-- Some occurrence of `a` strictly precedes some occurrence of `b`. -/
def observedBefore (a b : Ev) : List Ev → Bool
  | [] => false
  | x :: l => (x == a && l.contains b) || observedBefore a b l

/-- Concrete context used to instantiate the theorems: sound and auto-mute
enabled, working collaborators, distinct role shortcuts. -/
def ctx0 : Ctx :=
  { sound_enabled := true
    auto_mute_audio := true
    mgr := some ⟨true, true⟩
    history := Except.ok [strCp "hello"]
    typeOk := true
    toggle_s := strCp "F1"
    hold_s := strCp "F2"
    paste_s := strCp "F3" }

/-- Concrete initial state: nothing held, not recording. -/
def st0 : RecState := ⟨false, false, false, false⟩

/-- A context whose Toggle and Hold shortcuts normalize to the same
string, exercising the precedence tie-break. -/
def ctx1 : Ctx :=
  { ctx0 with toggle_s := strCp "Control+M", hold_s := strCp "Ctrl+M" }

/-! ### Overlay resize command (commands/overlay.rs) -/

/-- Side effect of the overlay command: a `set_size` call with logical
width and height. -/
inductive OvEv where
  | setSize : Rat → Rat → OvEv
deriving DecidableEq

/-- Model of `resize_overlay` (overlay.rs lines 4-16).  Dimensions are
exact rationals standing for finite `f64` values; `windowPresent` models
whether a webview window named "overlay" exists and `setSizeOk` whether
its `set_size` call succeeds. -/
def resize_overlay (windowPresent setSizeOk : Bool) (width height : Rat) :
    Except Unit Unit × List OvEv :=
  let min_size : Rat := 48
  let width := max width min_size
  let height := max height min_size
  if windowPresent then
    if setSizeOk then (Except.ok (), [OvEv.setSize width height])
    else (Except.error (), [OvEv.setSize width height])
  else (Except.ok (), [])

/-! ### Lemmas and theorems -/

/-! ### Basic lemmas about `pfx`, `sfx` and `occursIn` -/

theorem pfx_nil_left {s : List Nat} : pfx [] s :=
  ⟨s, rfl⟩

theorem pfx_refl {s : List Nat} : pfx s s :=
  ⟨[], List.append_nil s⟩

theorem pfx_nil_right {p : List Nat} : pfx p [] ↔ p = [] := by
  constructor
  · rintro ⟨t, h⟩
    exact (List.append_eq_nil.mp h).1
  · rintro rfl
    exact pfx_nil_left

theorem pfx_cons {a b : Nat} {p s : List Nat} :
    pfx (a :: p) (b :: s) ↔ a = b ∧ pfx p s := by
  constructor
  · rintro ⟨t, h⟩
    rw [List.cons_append, List.cons.injEq] at h
    exact ⟨h.1, t, h.2⟩
  · rintro ⟨rfl, t, rfl⟩
    exact ⟨t, rfl⟩

theorem pfx_length {p s : List Nat} (h : pfx p s) : p.length ≤ s.length := by
  obtain ⟨t, rfl⟩ := h
  simp

theorem pfx_eq_of_length {p s : List Nat} (h : pfx p s)
    (hl : s.length ≤ p.length) : p = s := by
  obtain ⟨t, rfl⟩ := h
  have ht : t = [] := by
    rw [List.length_append] at hl
    exact List.length_eq_zero.mp (by omega)
  simp [ht]

theorem isPfx_iff : ∀ p s : List Nat, isPfx p s = true ↔ pfx p s
  | [], s => by simpa [isPfx] using pfx_nil_left
  | a :: p, [] => by
      simp only [isPfx, pfx_nil_right]
      simp
  | a :: p, b :: s => by
      simp [isPfx, pfx_cons, isPfx_iff p s]

theorem pfx_take {p s : List Nat} (h : pfx p s) : s.take p.length = p := by
  obtain ⟨t, rfl⟩ := h
  induction p with
  | nil => rfl
  | cons a p ih =>
      simp only [List.cons_append, List.length_cons, List.take_succ_cons]
      rw [ih]

theorem drop_cons_of_lt :
    ∀ (w : List Nat) (j : Nat), j < w.length →
      ∃ d, w.drop j = d :: w.drop (j + 1)
  | [], _, h => absurd h (by simp)
  | a :: w, 0, _ => ⟨a, rfl⟩
  | a :: w, j + 1, h => by
      have := drop_cons_of_lt w j (by simp only [List.length_cons] at h; omega)
      exact this

theorem pfx_append_split :
    ∀ {x u y : List Nat}, pfx u (x ++ y) →
      pfx u x ∨ (pfx x u ∧ pfx (u.drop x.length) y) := by
  intro x
  induction x with
  | nil =>
      intro u y h
      exact Or.inr ⟨pfx_nil_left, by simpa using h⟩
  | cons a x ih =>
      intro u y h
      match u with
      | [] => exact Or.inl pfx_nil_left
      | b :: u =>
        rw [List.cons_append, pfx_cons] at h
        obtain ⟨hba, h2⟩ := h
        rcases ih h2 with h3 | ⟨h3, h4⟩
        · exact Or.inl (pfx_cons.mpr ⟨hba, h3⟩)
        · refine Or.inr ⟨pfx_cons.mpr ⟨hba.symm, h3⟩, ?_⟩
          simpa using h4

theorem occurs_nil {w : List Nat} : occursIn w [] ↔ w = [] := by
  simp [occursIn, pfx_nil_right]

theorem occurs_cons {w : List Nat} {c : Nat} {t : List Nat} :
    occursIn w (c :: t) ↔ pfx w (c :: t) ∨ occursIn w t := by
  constructor
  · rintro ⟨i, h⟩
    match i with
    | 0 => exact Or.inl h
    | i + 1 => exact Or.inr ⟨i, by simpa using h⟩
  · rintro (h | ⟨i, h⟩)
    · exact ⟨0, h⟩
    · exact ⟨i + 1, by simpa using h⟩

theorem occurs_of_occurs_drop {w s : List Nat} {n : Nat} :
    occursIn w (s.drop n) → occursIn w s := by
  rintro ⟨i, h⟩
  refine ⟨n + i, ?_⟩
  rwa [List.drop_drop] at h

theorem sfx_refl {s : List Nat} : sfx s s :=
  ⟨[], rfl⟩

theorem sfx_cons {p x : List Nat} {c : Nat} (h : sfx p x) : sfx p (c :: x) := by
  obtain ⟨t, rfl⟩ := h
  exact ⟨c :: t, rfl⟩

theorem isSfx_iff {p s : List Nat} : isSfx p s = true ↔ sfx p s := by
  rw [isSfx, isPfx_iff]
  constructor
  · rintro ⟨t, h⟩
    refine ⟨t.reverse, ?_⟩
    have h2 := congrArg List.reverse h
    simpa [List.reverse_append] using h2
  · rintro ⟨t, rfl⟩
    exact ⟨t.reverse, by simp [List.reverse_append]⟩

theorem occursB_iff : ∀ (w s : List Nat), occursB w s = true ↔ occursIn w s
  | w, [] => by
      simp [occursB, isPfx_iff, occurs_nil, pfx_nil_right]
  | w, c :: rest => by
      simp [occursB, isPfx_iff, occursB_iff w rest, occurs_cons]

theorem occurs_append :
    ∀ {x w y : List Nat}, occursIn w (x ++ y) →
      occursIn w x ∨ occursIn w y ∨
        ∃ j, 0 < j ∧ j < w.length ∧ sfx (w.take j) x ∧ pfx (w.drop j) y := by
  intro x
  induction x with
  | nil =>
      intro w y h
      exact Or.inr (Or.inl (by simpa using h))
  | cons c x ih =>
      intro w y h
      rw [List.cons_append, occurs_cons] at h
      rcases h with h | h
      · match w with
        | [] => exact Or.inl ⟨0, pfx_nil_left⟩
        | d :: w =>
          rw [pfx_cons] at h
          obtain ⟨hdc, h2⟩ := h
          rcases pfx_append_split h2 with h3 | ⟨h3, h4⟩
          · exact Or.inl ⟨0, pfx_cons.mpr ⟨hdc, h3⟩⟩
          · by_cases hlen : w.length ≤ x.length
            · have hx : x = w := pfx_eq_of_length h3 hlen
              exact Or.inl ⟨0, pfx_cons.mpr ⟨hdc, hx ▸ pfx_refl⟩⟩
            · push_neg at hlen
              refine Or.inr (Or.inr ⟨x.length + 1, Nat.succ_pos _, ?_, ?_, ?_⟩)
              · simp
                omega
              · have ht : (d :: w).take (x.length + 1) = c :: x := by
                  simp [List.take_succ_cons, pfx_take h3, hdc]
                rw [ht]
                exact sfx_refl
              · simpa using h4
      · rcases ih h with h | h | ⟨j, hj0, hjw, hs, hp⟩
        · exact Or.inl (occurs_cons.mpr (Or.inr h))
        · exact Or.inr (Or.inl h)
        · exact Or.inr (Or.inr ⟨j, hj0, hjw, sfx_cons hs, hp⟩)

/-! ### Behaviour of the `str::replace` model -/

theorem replaceFuel_nil (pat rep : List Nat) (n : Nat) :
    replaceFuel pat rep n [] = [] := by
  cases n <;> rfl

theorem replaceFuel_succ_cons (pat rep : List Nat) (n : Nat) (c : Nat)
    (rest : List Nat) :
    replaceFuel pat rep (n + 1) (c :: rest) =
      if isPfx pat (c :: rest) then
        rep ++ replaceFuel pat rep n ((c :: rest).drop pat.length)
      else
        c :: replaceFuel pat rep n rest := rfl

/-- Every character of the output of a replacement comes from the
replacement text or from the input. -/
theorem mem_replaceFuel (pat rep : List Nat) (hp : pat ≠ []) :
    ∀ (n : Nat) (s : List Nat), s.length ≤ n →
      ∀ a ∈ replaceFuel pat rep n s, a ∈ rep ∨ a ∈ s := by
  intro n
  induction n with
  | zero =>
      intro s hs a ha
      have hs0 : s = [] := List.length_eq_zero.mp (by omega)
      subst hs0
      rw [replaceFuel_nil] at ha
      exact absurd ha (List.not_mem_nil a)
  | succ n ih =>
      intro s hs a ha
      match s with
      | [] =>
          rw [replaceFuel_nil] at ha
          exact absurd ha (List.not_mem_nil a)
      | c :: rest =>
        have hpl : 0 < pat.length := List.length_pos.mpr hp
        rw [replaceFuel_succ_cons] at ha
        split at ha
        · rcases List.mem_append.mp ha with h | h
          · exact Or.inl h
          · have hlen : ((c :: rest).drop pat.length).length ≤ n := by
              rw [List.length_drop]
              simp only [List.length_cons] at hs ⊢
              omega
            rcases ih _ hlen a h with h2 | h2
            · exact Or.inl h2
            · exact Or.inr (List.drop_subset _ _ h2)
        · rcases List.mem_cons.mp ha with rfl | h
          · exact Or.inr (List.mem_cons_self _ _)
          · have hlen : rest.length ≤ n := by
              simp only [List.length_cons] at hs
              omega
            rcases ih rest hlen a h with h2 | h2
            · exact Or.inl h2
            · exact Or.inr (List.mem_cons_of_mem _ h2)

/-- Transfer of word fragments: if a proper tail of `w` begins the output of
a replacement, it already began the input.  Holds when no proper tail of `w`
begins `rep` and `w` is no longer than `rep`. -/
theorem pfx_drop_replaceFuel (pat rep w : List Nat) (hp : pat ≠ [])
    (hlen : w.length ≤ rep.length)
    (hsuf : ∀ j, j < w.length → 0 < j → isPfx (w.drop j) rep = false) :
    ∀ (n : Nat) (s : List Nat), s.length ≤ n → ∀ j, 0 < j → j < w.length →
      pfx (w.drop j) (replaceFuel pat rep n s) → pfx (w.drop j) s := by
  intro n
  induction n with
  | zero =>
      intro s hs j hj0 hjw h
      have hs0 : s = [] := List.length_eq_zero.mp (by omega)
      subst hs0
      rw [replaceFuel_nil] at h
      exfalso
      have h0 := congrArg List.length (pfx_nil_right.mp h)
      rw [List.length_drop] at h0
      simp only [List.length_nil] at h0
      omega
  | succ n ih =>
      intro s hs j hj0 hjw h
      match s with
      | [] =>
          rw [replaceFuel_nil] at h
          exfalso
          have h0 := congrArg List.length (pfx_nil_right.mp h)
          rw [List.length_drop] at h0
          simp only [List.length_nil] at h0
          omega
      | c :: rest =>
        have hpl : 0 < pat.length := List.length_pos.mpr hp
        rw [replaceFuel_succ_cons] at h
        split at h
        · rcases pfx_append_split h with h2 | ⟨h2, _⟩
          · exfalso
            have h3 := (isPfx_iff _ _).mpr h2
            rw [hsuf j hjw hj0] at h3
            exact Bool.false_ne_true h3
          · exfalso
            have hl := pfx_length h2
            rw [List.length_drop] at hl
            omega
        · obtain ⟨d, hd⟩ := drop_cons_of_lt w j hjw
          rw [hd, pfx_cons] at h
          obtain ⟨hdc, h2⟩ := h
          rw [hd, pfx_cons]
          refine ⟨hdc, ?_⟩
          have hrl : rest.length ≤ n := by
            simp only [List.length_cons] at hs
            omega
          by_cases hj1 : j + 1 < w.length
          · exact ih rest hrl (j + 1) (by omega) hj1 h2
          · have hnil : w.drop (j + 1) = [] :=
              List.drop_eq_nil_of_le (by omega)
            rw [hnil]
            exact pfx_nil_left

/-- The output of a replacement contains no occurrence of the pattern,
provided `rep` neither contains `pat` nor shares the boundary fragments
that could recreate it. -/
theorem not_occurs_replaceFuel_self (pat rep : List Nat) (hp : pat ≠ [])
    (hlen : pat.length ≤ rep.length)
    (hsuf : ∀ j, j < pat.length → 0 < j → isPfx (pat.drop j) rep = false)
    (hocc : occursB pat rep = false)
    (hpre : ∀ j, j < pat.length → 0 < j → isSfx (pat.take j) rep = false) :
    ∀ (n : Nat) (s : List Nat), s.length ≤ n →
      ¬ occursIn pat (replaceFuel pat rep n s) := by
  intro n
  induction n with
  | zero =>
      intro s hs h
      have hs0 : s = [] := List.length_eq_zero.mp (by omega)
      subst hs0
      rw [replaceFuel_nil] at h
      exact hp (occurs_nil.mp h)
  | succ n ih =>
      intro s hs h
      match s with
      | [] =>
          rw [replaceFuel_nil] at h
          exact hp (occurs_nil.mp h)
      | c :: rest =>
        have hpl : 0 < pat.length := List.length_pos.mpr hp
        have hrl : rest.length ≤ n := by
          simp only [List.length_cons] at hs
          omega
        rw [replaceFuel_succ_cons] at h
        split at h
        · rcases occurs_append h with h2 | h2 | ⟨j, hj0, hjp, hsf, _⟩
          · rw [← occursB_iff, hocc] at h2
            exact Bool.false_ne_true h2
          · have hlen2 : ((c :: rest).drop pat.length).length ≤ n := by
              rw [List.length_drop]
              simp only [List.length_cons] at hs ⊢
              omega
            exact ih _ hlen2 h2
          · have h3 := isSfx_iff.mpr hsf
            rw [hpre j hjp hj0] at h3
            exact Bool.false_ne_true h3
        · next hm =>
          rcases occurs_cons.mp h with h2 | h2
          · obtain ⟨e, p', hpat⟩ := List.exists_cons_of_ne_nil hp
            rw [hpat, pfx_cons] at h2
            obtain ⟨hec, h3⟩ := h2
            have hpfx : pfx pat (c :: rest) := by
              by_cases h1 : 1 < pat.length
              · have h4 : pfx (pat.drop 1) (replaceFuel pat rep n rest) := by
                  rw [hpat]
                  exact h3
                have h5 := pfx_drop_replaceFuel pat rep pat hp hlen hsuf
                  n rest hrl 1 one_pos h1 h4
                rw [hpat] at h5 ⊢
                exact pfx_cons.mpr ⟨hec, h5⟩
              · have hp1 : p' = [] := by
                  have := congrArg List.length hpat
                  simp only [List.length_cons] at this
                  exact List.length_eq_zero.mp (by omega)
                exact hpat ▸ hp1 ▸ pfx_cons.mpr ⟨hec, pfx_nil_left⟩
            exact hm ((isPfx_iff _ _).mpr hpfx)
          · exact ih rest hrl h2

/-- Absence of a word `w` is preserved by replacing a different pattern,
when `rep` cannot contain or recreate `w`. -/
theorem not_occurs_replaceFuel_cross (w pat rep : List Nat) (hp : pat ≠ [])
    (hw : w ≠ [])
    (hlen : w.length ≤ rep.length)
    (hsuf : ∀ j, j < w.length → 0 < j → isPfx (w.drop j) rep = false)
    (hocc : occursB w rep = false)
    (hpre : ∀ j, j < w.length → 0 < j → isSfx (w.take j) rep = false) :
    ∀ (n : Nat) (s : List Nat), s.length ≤ n → ¬ occursIn w s →
      ¬ occursIn w (replaceFuel pat rep n s) := by
  intro n
  induction n with
  | zero =>
      intro s hs hns h
      have hs0 : s = [] := List.length_eq_zero.mp (by omega)
      subst hs0
      rw [replaceFuel_nil] at h
      exact hw (occurs_nil.mp h)
  | succ n ih =>
      intro s hs hns h
      match s with
      | [] =>
          rw [replaceFuel_nil] at h
          exact hw (occurs_nil.mp h)
      | c :: rest =>
        have hpl : 0 < pat.length := List.length_pos.mpr hp
        have hrl : rest.length ≤ n := by
          simp only [List.length_cons] at hs
          omega
        rw [replaceFuel_succ_cons] at h
        split at h
        · rcases occurs_append h with h2 | h2 | ⟨j, hj0, hjp, hsf, _⟩
          · rw [← occursB_iff, hocc] at h2
            exact Bool.false_ne_true h2
          · have hlen2 : ((c :: rest).drop pat.length).length ≤ n := by
              rw [List.length_drop]
              simp only [List.length_cons] at hs ⊢
              omega
            have hns2 : ¬ occursIn w ((c :: rest).drop pat.length) :=
              fun hcon => hns (occurs_of_occurs_drop hcon)
            exact ih _ hlen2 hns2 h2
          · have h3 := isSfx_iff.mpr hsf
            rw [hpre j hjp hj0] at h3
            exact Bool.false_ne_true h3
        · rcases occurs_cons.mp h with h2 | h2
          · obtain ⟨e, w', hwe⟩ := List.exists_cons_of_ne_nil hw
            rw [hwe, pfx_cons] at h2
            obtain ⟨hec, h3⟩ := h2
            apply hns
            refine ⟨0, ?_⟩
            simp only [List.drop_zero]
            by_cases h1 : 1 < w.length
            · have h4 : pfx (w.drop 1) (replaceFuel pat rep n rest) := by
                rw [hwe]
                exact h3
              have h5 := pfx_drop_replaceFuel pat rep w hp hlen hsuf
                n rest hrl 1 one_pos h1 h4
              rw [hwe] at h5 ⊢
              exact pfx_cons.mpr ⟨hec, h5⟩
            · have hw1 : w' = [] := by
                have := congrArg List.length hwe
                simp only [List.length_cons] at this
                exact List.length_eq_zero.mp (by omega)
              exact hwe ▸ hw1 ▸ pfx_cons.mpr ⟨hec, pfx_nil_left⟩
          · have hns2 : ¬ occursIn w rest :=
              fun hcon => hns (occurs_cons.mpr (Or.inr hcon))
            exact ih rest hrl hns2 h2

/-- Replacing a pattern that does not occur is the identity. -/
theorem replaceFuel_of_not_occurs (pat rep : List Nat) :
    ∀ (n : Nat) (s : List Nat), s.length ≤ n → ¬ occursIn pat s →
      replaceFuel pat rep n s = s := by
  intro n
  induction n with
  | zero =>
      intro s hs _
      have hs0 : s = [] := List.length_eq_zero.mp (by omega)
      subst hs0
      exact replaceFuel_nil _ _ _
  | succ n ih =>
      intro s hs hns
      match s with
      | [] => exact replaceFuel_nil _ _ _
      | c :: rest =>
        rw [replaceFuel_succ_cons]
        have hrl : rest.length ≤ n := by
          simp only [List.length_cons] at hs
          omega
        rw [if_neg ?notpfx]
        case notpfx =>
          intro hm
          exact hns ⟨0, by simpa using (isPfx_iff _ _).mp hm⟩
        have hns2 : ¬ occursIn pat rest :=
          fun hcon => hns (occurs_cons.mpr (Or.inr hcon))
        rw [ih rest hrl hns2]

theorem mem_replaceList {pat rep s : List Nat} (hp : pat ≠ []) :
    ∀ a ∈ replaceList pat rep s, a ∈ rep ∨ a ∈ s :=
  mem_replaceFuel pat rep hp s.length s le_rfl

theorem replaceList_id {pat rep s : List Nat} (h : ¬ occursIn pat s) :
    replaceList pat rep s = s :=
  replaceFuel_of_not_occurs pat rep s.length s le_rfl h

theorem replaceList_safe_self (pat rep : List Nat) (h : SafeRep pat rep)
    (s : List Nat) : ¬ occursIn pat (replaceList pat rep s) :=
  not_occurs_replaceFuel_self pat rep h.1 h.2.1 h.2.2.2.1 h.2.2.1 h.2.2.2.2
    s.length s le_rfl

theorem replaceList_safe_cross (w pat rep : List Nat) (hp : pat ≠ [])
    (h : SafeRep w rep) (s : List Nat) (hns : ¬ occursIn w s) :
    ¬ occursIn w (replaceList pat rep s) :=
  not_occurs_replaceFuel_cross w pat rep hp h.1 h.2.1 h.2.2.2.1 h.2.2.1
    h.2.2.2.2 s.length s le_rfl hns

theorem lowerNat_idem (a : Nat) : lowerNat (lowerNat a) = lowerNat a := by
  by_cases h : 65 ≤ a ∧ a ≤ 90
  · simp only [lowerNat, if_pos h]
    rw [if_neg (by omega)]
  · simp only [lowerNat, if_neg h]

theorem rustLower_eq_self :
    ∀ (s : List Nat), (∀ a ∈ s, lowerNat a = a) → rustLower s = s
  | [], _ => rfl
  | a :: t, h => by
      simp only [rustLower, List.map_cons]
      rw [h a (List.mem_cons_self a t)]
      have ih := rustLower_eq_self t (fun b hb => h b (List.mem_cons_of_mem a hb))
      simp only [rustLower] at ih
      rw [ih]

theorem lowerNat_fix_superCp : ∀ a ∈ superCp, lowerNat a = a := by decide

theorem lowerNat_fix_controlCp : ∀ a ∈ controlCp, lowerNat a = a := by decide

/-- Every code point of a normalized string is fixed by lowercasing. -/
theorem lowerNat_fix_of_mem_normalize (s : List Nat) :
    ∀ a ∈ normalize_shortcut_string s, lowerNat a = a := by
  intro a ha
  unfold normalize_shortcut_string at ha
  rcases mem_replaceList (by decide : winCp ≠ []) a ha with h | h
  · exact lowerNat_fix_superCp a h
  rcases mem_replaceList (by decide : metaCp ≠ []) a h with h | h
  · exact lowerNat_fix_superCp a h
  rcases mem_replaceList (by decide : cmdCp ≠ []) a h with h | h
  · exact lowerNat_fix_superCp a h
  rcases mem_replaceList (by decide : ctrlCp ≠ []) a h with h | h
  · exact lowerNat_fix_controlCp a h
  · obtain ⟨b, _, rfl⟩ := List.mem_map.mp h
    exact lowerNat_idem b

/-- Normalization is idempotent: the output contains no lowercase-changing
character and no surviving occurrence of any of the four folded synonyms,
so a second pass is the identity. -/
theorem normalize_idem (s : List Nat) :
    normalize_shortcut_string (normalize_shortcut_string s)
      = normalize_shortcut_string s := by
  have hcc : SafeRep ctrlCp controlCp := by decide
  have hcs : SafeRep ctrlCp superCp := by decide
  have hds : SafeRep cmdCp superCp := by decide
  have hms : SafeRep metaCp superCp := by decide
  have hws : SafeRep winCp superCp := by decide
  have hcmd0 : cmdCp ≠ [] := by decide
  have hmeta0 : metaCp ≠ [] := by decide
  have hwin0 : winCp ≠ [] := by decide
  have hctrlN : ¬ occursIn ctrlCp (normalize_shortcut_string s) :=
    replaceList_safe_cross ctrlCp winCp superCp hwin0 hcs _
      (replaceList_safe_cross ctrlCp metaCp superCp hmeta0 hcs _
        (replaceList_safe_cross ctrlCp cmdCp superCp hcmd0 hcs _
          (replaceList_safe_self ctrlCp controlCp hcc (rustLower s))))
  have hcmdN : ¬ occursIn cmdCp (normalize_shortcut_string s) :=
    replaceList_safe_cross cmdCp winCp superCp hwin0 hds _
      (replaceList_safe_cross cmdCp metaCp superCp hmeta0 hds _
        (replaceList_safe_self cmdCp superCp hds
          (replaceList ctrlCp controlCp (rustLower s))))
  have hmetaN : ¬ occursIn metaCp (normalize_shortcut_string s) :=
    replaceList_safe_cross metaCp winCp superCp hwin0 hms _
      (replaceList_safe_self metaCp superCp hms
        (replaceList cmdCp superCp (replaceList ctrlCp controlCp (rustLower s))))
  have hwinN : ¬ occursIn winCp (normalize_shortcut_string s) :=
    replaceList_safe_self winCp superCp hws
      (replaceList metaCp superCp
        (replaceList cmdCp superCp (replaceList ctrlCp controlCp (rustLower s))))
  have hmem := lowerNat_fix_of_mem_normalize s
  show replaceList winCp superCp
      (replaceList metaCp superCp
        (replaceList cmdCp superCp
          (replaceList ctrlCp controlCp
            (rustLower (normalize_shortcut_string s)))))
      = normalize_shortcut_string s
  rw [rustLower_eq_self (normalize_shortcut_string s) hmem,
    replaceList_id hctrlN, replaceList_id hcmdN, replaceList_id hmetaN,
    replaceList_id hwinN]

/-- C5: shortcut normalization is idempotent for every input string, and it
folds the documented synonyms: Ctrl with Control, and Cmd, Meta, Win with
each other. -/
theorem claim_C5 :
    (∀ s : List Nat, normalize_shortcut_string (normalize_shortcut_string s)
        = normalize_shortcut_string s)
    ∧ normalize_shortcut_string (strCp "Ctrl+Shift+A")
        = normalize_shortcut_string (strCp "Control+Shift+A")
    ∧ normalize_shortcut_string (strCp "Cmd+K")
        = normalize_shortcut_string (strCp "Meta+K")
    ∧ normalize_shortcut_string (strCp "Meta+K")
        = normalize_shortcut_string (strCp "Win+K") :=
  ⟨normalize_idem, by decide, by decide, by decide⟩

/-! ### Helper lemmas about the handlers -/

theorem toggle_update_merge (st : RecState) (b1 b2 : Bool) :
    ({ { st with toggle_key_held := b1 } with toggle_key_held := b2 }
      : RecState) = { st with toggle_key_held := b2 } := rfl

theorem ptt_update_merge (st : RecState) (b1 b2 : Bool) :
    ({ { st with ptt_key_held := b1 } with ptt_key_held := b2 }
      : RecState) = { st with ptt_key_held := b2 } := rfl

theorem paste_update_merge (st : RecState) (b1 b2 : Bool) :
    ({ { st with paste_key_held := b1 } with paste_key_held := b2 }
      : RecState) = { st with paste_key_held := b2 } := rfl

theorem toggle_set_false_eq {st : RecState} (h : st.toggle_key_held = false) :
    ({ st with toggle_key_held := false } : RecState) = st := by
  cases st
  simp_all

theorem ptt_set_false_eq {st : RecState} (h : st.ptt_key_held = false) :
    ({ st with ptt_key_held := false } : RecState) = st := by
  cases st
  simp_all

theorem paste_set_false_eq {st : RecState} (h : st.paste_key_held = false) :
    ({ st with paste_key_held := false } : RecState) = st := by
  cases st
  simp_all

theorem countEv_append (e : Ev) :
    ∀ l1 l2 : List Ev, countEv e (l1 ++ l2) = countEv e l1 + countEv e l2
  | [], l2 => by simp [countEv]
  | x :: l1, l2 => by
      show (if x = e then 1 else 0) + countEv e (l1 ++ l2)
          = ((if x = e then 1 else 0) + countEv e l1) + countEv e l2
      rw [countEv_append e l1 l2]
      omega

theorem start_emitStart_count (st : RecState) (snd am : Bool)
    (mgr : Option MuteManager) :
    countEv Ev.emitStart (start_recording st snd mgr am).2 = 1 := by
  rcases mgr with _ | m
  · cases snd <;> cases am <;> simp [start_recording, countEv]
  · rcases m with ⟨mo, uo⟩
    cases snd <;> cases am <;> cases mo <;> simp [start_recording, countEv]

theorem start_emitStop_count (st : RecState) (snd am : Bool)
    (mgr : Option MuteManager) :
    countEv Ev.emitStop (start_recording st snd mgr am).2 = 0 := by
  rcases mgr with _ | m
  · cases snd <;> cases am <;> simp [start_recording, countEv]
  · rcases m with ⟨mo, uo⟩
    cases snd <;> cases am <;> cases mo <;> simp [start_recording, countEv]

theorem start_pasteFire_count (st : RecState) (snd am : Bool)
    (mgr : Option MuteManager) :
    countEv Ev.pasteFire (start_recording st snd mgr am).2 = 0 := by
  rcases mgr with _ | m
  · cases snd <;> cases am <;> simp [start_recording, countEv]
  · rcases m with ⟨mo, uo⟩
    cases snd <;> cases am <;> cases mo <;> simp [start_recording, countEv]

theorem stop_emitStop_count (st : RecState) (snd am : Bool)
    (mgr : Option MuteManager) :
    countEv Ev.emitStop (stop_recording st snd mgr am).2 = 1 := by
  rcases mgr with _ | m
  · cases snd <;> cases am <;> simp [stop_recording, countEv]
  · rcases m with ⟨mo, uo⟩
    cases snd <;> cases am <;> cases uo <;> simp [stop_recording, countEv]

theorem stop_emitStart_count (st : RecState) (snd am : Bool)
    (mgr : Option MuteManager) :
    countEv Ev.emitStart (stop_recording st snd mgr am).2 = 0 := by
  rcases mgr with _ | m
  · cases snd <;> cases am <;> simp [stop_recording, countEv]
  · rcases m with ⟨mo, uo⟩
    cases snd <;> cases am <;> cases uo <;> simp [stop_recording, countEv]

theorem stop_pasteFire_count (st : RecState) (snd am : Bool)
    (mgr : Option MuteManager) :
    countEv Ev.pasteFire (stop_recording st snd mgr am).2 = 0 := by
  rcases mgr with _ | m
  · cases snd <;> cases am <;> simp [stop_recording, countEv]
  · rcases m with ⟨mo, uo⟩
    cases snd <;> cases am <;> cases uo <;> simp [stop_recording, countEv]

theorem pasteEvs_pasteFire_count (c : Ctx) :
    countEv Ev.pasteFire (pasteEvs c) = 0 := by
  rcases hh : c.history with e | entries
  · simp [pasteEvs, hh, countEv]
  · cases entries with
    | nil => simp [pasteEvs, hh, countEv]
    | cons a l => cases hc : c.typeOk <;> simp [pasteEvs, hh, hc, countEv]

theorem start_cue_count (st : RecState) (mgr : Option MuteManager)
    (am : Bool) :
    countEv (Ev.playCue true) (start_recording st true mgr am).2 = 1 := by
  rcases mgr with _ | m
  · cases am <;> simp [start_recording, countEv]
  · rcases m with ⟨mo, uo⟩
    cases am <;> cases mo <;> simp [start_recording, countEv]

theorem start_mute_count (st : RecState) (snd : Bool) (m : MuteManager) :
    countEv Ev.muteAttempt (start_recording st snd (some m) true).2 = 1 := by
  rcases m with ⟨mo, uo⟩
  cases snd <;> cases mo <;> simp [start_recording, countEv]

theorem handle_toggle (c : Ctx) (sc : List Nat) (e : KeyState) (st : RecState)
    (h : normalize_shortcut_string sc = normalize_shortcut_string c.toggle_s) :
    handle_shortcut_event c sc e st = toggle_branch c e st := by
  simp only [handle_shortcut_event]
  rw [if_pos h]

theorem handle_hold (c : Ctx) (sc : List Nat) (e : KeyState) (st : RecState)
    (h1 : normalize_shortcut_string sc ≠ normalize_shortcut_string c.toggle_s)
    (h2 : normalize_shortcut_string sc = normalize_shortcut_string c.hold_s) :
    handle_shortcut_event c sc e st = hold_branch c e st := by
  simp only [handle_shortcut_event]
  rw [if_neg h1, if_pos h2]

theorem handle_paste (c : Ctx) (sc : List Nat) (e : KeyState) (st : RecState)
    (h1 : normalize_shortcut_string sc ≠ normalize_shortcut_string c.toggle_s)
    (h2 : normalize_shortcut_string sc ≠ normalize_shortcut_string c.hold_s)
    (h3 : normalize_shortcut_string sc = normalize_shortcut_string c.paste_s) :
    handle_shortcut_event c sc e st = paste_branch c e st := by
  simp only [handle_shortcut_event]
  rw [if_neg h1, if_neg h2, if_pos h3]

theorem handle_unknown (c : Ctx) (sc : List Nat) (e : KeyState) (st : RecState)
    (h1 : normalize_shortcut_string sc ≠ normalize_shortcut_string c.toggle_s)
    (h2 : normalize_shortcut_string sc ≠ normalize_shortcut_string c.hold_s)
    (h3 : normalize_shortcut_string sc ≠ normalize_shortcut_string c.paste_s) :
    handle_shortcut_event c sc e st = (st, [Ev.logUnknown]) := by
  simp only [handle_shortcut_event]
  rw [if_neg h1, if_neg h2, if_neg h3]

/-- A full Toggle gesture from an un-armed key while not recording is
exactly one start sequence. -/
theorem toggle_gesture_start (c : Ctx) (st : RecState)
    (h : st.toggle_key_held = false) (hr : st.is_recording = false) :
    runEvents c c.toggle_s [.pressed, .released] st
      = start_recording st c.sound_enabled c.mgr c.auto_mute_audio := by
  cases st
  simp_all [runEvents, handle_toggle, toggle_branch, toggle_update_merge]

/-- A full Toggle gesture from an un-armed key while recording is exactly
one stop sequence. -/
theorem toggle_gesture_stop (c : Ctx) (st : RecState)
    (h : st.toggle_key_held = false) (hr : st.is_recording = true) :
    runEvents c c.toggle_s [.pressed, .released] st
      = stop_recording st c.sound_enabled c.mgr c.auto_mute_audio := by
  cases st
  simp_all [runEvents, handle_toggle, toggle_branch, toggle_update_merge]

/-- Key-repeat immunity of the Toggle role: three presses then a release
collapse to one decision, as if a single gesture. -/
theorem toggle_repeat_gesture (c : Ctx) (st : RecState)
    (h : st.toggle_key_held = false) :
    runEvents c c.toggle_s [.pressed, .pressed, .pressed, .released] st
      = if st.is_recording
        then stop_recording st c.sound_enabled c.mgr c.auto_mute_audio
        else start_recording st c.sound_enabled c.mgr c.auto_mute_audio := by
  cases st
  simp_all [runEvents, handle_toggle, toggle_branch, toggle_update_merge]

theorem start_recording_state (st : RecState) (snd : Bool)
    (mgr : Option MuteManager) (am : Bool) :
    (start_recording st snd mgr am).1 = { st with is_recording := true } := rfl

theorem stop_recording_state (st : RecState) (snd : Bool)
    (mgr : Option MuteManager) (am : Bool) :
    (stop_recording st snd mgr am).1 = { st with is_recording := false } := rfl

/-- Key-repeat immunity of the Hold role: three presses then a release
start exactly once. -/
theorem hold_repeat_counts (c : Ctx) (st : RecState)
    (h : st.ptt_key_held = false)
    (hne : normalize_shortcut_string c.hold_s
      ≠ normalize_shortcut_string c.toggle_s) :
    countEv Ev.emitStart (runEvents c c.hold_s
      [.pressed, .pressed, .pressed, .released] st).2 = 1 := by
  cases st
  simp_all [runEvents, handle_hold, hold_branch, ptt_update_merge,
    start_recording_state, countEv_append, start_emitStart_count,
    stop_emitStart_count]

/-- Key-repeat immunity of the PasteLast role: three presses then a
release paste exactly once. -/
theorem paste_repeat_count (c : Ctx) (st : RecState)
    (h : st.paste_key_held = false)
    (hne1 : normalize_shortcut_string c.paste_s
      ≠ normalize_shortcut_string c.toggle_s)
    (hne2 : normalize_shortcut_string c.paste_s
      ≠ normalize_shortcut_string c.hold_s) :
    countEv Ev.pasteFire (runEvents c c.paste_s
      [.pressed, .pressed, .pressed, .released] st).2 = 1 := by
  cases st
  simp_all [runEvents, handle_paste, paste_branch, paste_update_merge,
    countEv_append, countEv, pasteEvs_pasteFire_count]

/-- C1: for the Toggle role, [press, release] from an un-armed key while
not recording emits exactly one start and leaves `is_recording` true; a
subsequent [press, release] emits exactly one stop and leaves it false;
press alone emits nothing, the decision being taken on release from
`is_recording` at that instant. -/
theorem claim_C1 (c : Ctx) (st : RecState)
    (hrec : st.is_recording = false) (hheld : st.toggle_key_held = false) :
    (handle_shortcut_event c c.toggle_s .pressed st).2 = []
    ∧ countEv Ev.emitStart
        (runEvents c c.toggle_s [.pressed, .released] st).2 = 1
    ∧ countEv Ev.emitStop
        (runEvents c c.toggle_s [.pressed, .released] st).2 = 0
    ∧ (runEvents c c.toggle_s [.pressed, .released] st).1.is_recording = true
    ∧ countEv Ev.emitStart
        (runEvents c c.toggle_s [.pressed, .released]
          (runEvents c c.toggle_s [.pressed, .released] st).1).2 = 0
    ∧ countEv Ev.emitStop
        (runEvents c c.toggle_s [.pressed, .released]
          (runEvents c c.toggle_s [.pressed, .released] st).1).2 = 1
    ∧ (runEvents c c.toggle_s [.pressed, .released]
        (runEvents c c.toggle_s [.pressed, .released] st).1).1.is_recording
        = false := by
  have hg1 := toggle_gesture_start c st hheld hrec
  have hg2 := toggle_gesture_stop c { st with is_recording := true }
    (by simp [hheld]) (by simp)
  refine ⟨?_, ?_, ?_, ?_, ?_, ?_, ?_⟩
  · rw [handle_toggle c c.toggle_s .pressed st rfl]
    rfl
  · rw [hg1]
    exact start_emitStart_count _ _ _ _
  · rw [hg1]
    exact start_emitStop_count _ _ _ _
  · rw [hg1, start_recording_state]
  · rw [hg1, start_recording_state, hg2]
    exact stop_emitStart_count _ _ _ _
  · rw [hg1, start_recording_state, hg2]
    exact stop_emitStop_count _ _ _ _
  · rw [hg1, start_recording_state, hg2, stop_recording_state]

theorem claim_C1_witness :
    st0.is_recording = false ∧ st0.toggle_key_held = false ∧
      countEv Ev.emitStart
        (runEvents ctx0 ctx0.toggle_s [.pressed, .released] st0).2 = 1 :=
  ⟨rfl, rfl, (claim_C1 ctx0 st0 rfl rfl).2.1⟩

/-- C3: the sequence [press, press, press, release] from an un-armed key
produces exactly one activation per role: one start-or-stop decision for
Toggle, one start for Hold, one paste action for PasteLast. -/
theorem claim_C3 (c : Ctx) (st : RecState) :
    (st.toggle_key_held = false →
      countEv Ev.emitStart (runEvents c c.toggle_s
          [.pressed, .pressed, .pressed, .released] st).2
        + countEv Ev.emitStop (runEvents c c.toggle_s
          [.pressed, .pressed, .pressed, .released] st).2 = 1)
    ∧ (st.ptt_key_held = false →
        normalize_shortcut_string c.hold_s
          ≠ normalize_shortcut_string c.toggle_s →
        countEv Ev.emitStart (runEvents c c.hold_s
          [.pressed, .pressed, .pressed, .released] st).2 = 1)
    ∧ (st.paste_key_held = false →
        normalize_shortcut_string c.paste_s
          ≠ normalize_shortcut_string c.toggle_s →
        normalize_shortcut_string c.paste_s
          ≠ normalize_shortcut_string c.hold_s →
        countEv Ev.pasteFire (runEvents c c.paste_s
          [.pressed, .pressed, .pressed, .released] st).2 = 1) := by
  refine ⟨?_, ?_, ?_⟩
  · intro hheld
    rw [toggle_repeat_gesture c st hheld]
    cases hr : st.is_recording <;>
      simp [start_emitStart_count, start_emitStop_count,
        stop_emitStart_count, stop_emitStop_count]
  · intro h hne
    exact hold_repeat_counts c st h hne
  · intro h hne1 hne2
    exact paste_repeat_count c st h hne1 hne2

theorem claim_C3_witness :
    countEv Ev.emitStart (runEvents ctx0 ctx0.hold_s
      [.pressed, .pressed, .pressed, .released] st0).2 = 1 :=
  (claim_C3 ctx0 st0).2.1 rfl (by decide)

/-- C4: a release event for a role whose held-flag is false is a complete
no-op: the state is unchanged and no side effect is emitted. -/
theorem claim_C4 (c : Ctx) (sc : List Nat) (st : RecState) :
    (normalize_shortcut_string sc = normalize_shortcut_string c.toggle_s →
      st.toggle_key_held = false →
      handle_shortcut_event c sc .released st = (st, []))
    ∧ (normalize_shortcut_string sc ≠ normalize_shortcut_string c.toggle_s →
       normalize_shortcut_string sc = normalize_shortcut_string c.hold_s →
       st.ptt_key_held = false →
       handle_shortcut_event c sc .released st = (st, []))
    ∧ (normalize_shortcut_string sc ≠ normalize_shortcut_string c.toggle_s →
       normalize_shortcut_string sc ≠ normalize_shortcut_string c.hold_s →
       normalize_shortcut_string sc = normalize_shortcut_string c.paste_s →
       st.paste_key_held = false →
       handle_shortcut_event c sc .released st = (st, [])) := by
  refine ⟨?_, ?_, ?_⟩
  · intro h hheld
    rw [handle_toggle c sc .released st h]
    simp [toggle_branch, hheld, toggle_set_false_eq hheld]
  · intro h1 h2 hptt
    rw [handle_hold c sc .released st h1 h2]
    simp [hold_branch, hptt, ptt_set_false_eq hptt]
  · intro h1 h2 h3 hpaste
    rw [handle_paste c sc .released st h1 h2 h3]
    simp [paste_branch, hpaste, paste_set_false_eq hpaste]

theorem claim_C4_witness :
    handle_shortcut_event ctx0 ctx0.toggle_s .released st0 = (st0, []) :=
  (claim_C4 ctx0 ctx0.toggle_s st0).1 rfl rfl

/-- C6: dispatch precedence — an event's normalized shortcut is compared
against Toggle, then Hold, then PasteLast, and exactly the first matching
role's logic runs; matching none, the event is only logged.  In
particular, when a shortcut matches both Toggle and Hold, a press sets
only the toggle held flag and causes no other effect. -/
theorem claim_C6 (c : Ctx) (sc : List Nat) (e : KeyState) (st : RecState) :
    (normalize_shortcut_string sc = normalize_shortcut_string c.toggle_s →
      handle_shortcut_event c sc e st = toggle_branch c e st)
    ∧ (normalize_shortcut_string sc ≠ normalize_shortcut_string c.toggle_s →
       normalize_shortcut_string sc = normalize_shortcut_string c.hold_s →
       handle_shortcut_event c sc e st = hold_branch c e st)
    ∧ (normalize_shortcut_string sc ≠ normalize_shortcut_string c.toggle_s →
       normalize_shortcut_string sc ≠ normalize_shortcut_string c.hold_s →
       normalize_shortcut_string sc = normalize_shortcut_string c.paste_s →
       handle_shortcut_event c sc e st = paste_branch c e st)
    ∧ (normalize_shortcut_string sc ≠ normalize_shortcut_string c.toggle_s →
       normalize_shortcut_string sc ≠ normalize_shortcut_string c.hold_s →
       normalize_shortcut_string sc ≠ normalize_shortcut_string c.paste_s →
       handle_shortcut_event c sc e st = (st, [Ev.logUnknown]))
    ∧ (normalize_shortcut_string sc = normalize_shortcut_string c.toggle_s →
       normalize_shortcut_string sc = normalize_shortcut_string c.hold_s →
       handle_shortcut_event c sc .pressed st
         = ({ st with toggle_key_held := true }, [])) := by
  refine ⟨handle_toggle c sc e st, handle_hold c sc e st,
    handle_paste c sc e st, handle_unknown c sc e st, ?_⟩
  intro h1 _
  rw [handle_toggle c sc .pressed st h1]
  rfl

theorem claim_C6_witness :
    handle_shortcut_event ctx1 (strCp "Ctrl+M") .pressed st0
      = ({ st0 with toggle_key_held := true }, []) :=
  (claim_C6 ctx1 (strCp "Ctrl+M") .pressed st0).2.2.2.2 (by decide) (by decide)

/-- C9: a Hold press while already recording but with the hold key not
held runs the whole start sequence again — second notification, cue and
muting included — because the Hold branch checks only `ptt_key_held`. -/
theorem claim_C9 (c : Ctx) (sc : List Nat) (st : RecState)
    (hrec : st.is_recording = true) (hptt : st.ptt_key_held = false)
    (h1 : normalize_shortcut_string sc ≠ normalize_shortcut_string c.toggle_s)
    (h2 : normalize_shortcut_string sc = normalize_shortcut_string c.hold_s) :
    handle_shortcut_event c sc .pressed st
      = start_recording { st with ptt_key_held := true }
          c.sound_enabled c.mgr c.auto_mute_audio
    ∧ (handle_shortcut_event c sc .pressed st).1.is_recording = true
    ∧ countEv Ev.emitStart (handle_shortcut_event c sc .pressed st).2 = 1
    ∧ (c.sound_enabled = true →
        countEv (Ev.playCue true)
          (handle_shortcut_event c sc .pressed st).2 = 1)
    ∧ (∀ m, c.mgr = some m → c.auto_mute_audio = true →
        countEv Ev.muteAttempt
          (handle_shortcut_event c sc .pressed st).2 = 1) := by
  have he : handle_shortcut_event c sc .pressed st
      = start_recording { st with ptt_key_held := true }
          c.sound_enabled c.mgr c.auto_mute_audio := by
    rw [handle_hold c sc .pressed st h1 h2]
    simp [hold_branch, hptt]
  refine ⟨he, ?_, ?_, ?_, ?_⟩
  · rw [he, start_recording_state]
  · rw [he]
    exact start_emitStart_count _ _ _ _
  · intro hs
    rw [he, hs]
    exact start_cue_count _ _ _
  · intro m hm ha
    rw [he, hm, ha]
    exact start_mute_count _ _ _

theorem claim_C9_witness :
    handle_shortcut_event ctx0 ctx0.hold_s .pressed
        { st0 with is_recording := true }
      = start_recording { st0 with ptt_key_held := true, is_recording := true }
          ctx0.sound_enabled ctx0.mgr ctx0.auto_mute_audio :=
  (claim_C9 ctx0 ctx0.hold_s { st0 with is_recording := true }
    rfl rfl (by decide) rfl).1

/-- C2 fails on the code: in `start_recording` the `recording-start`
notification is emitted last (lib.rs line 91), after cue playback and
muting, not before the cue.  Concretely, with sound enabled the trace is
[flag, cue, sleep, emit] and the emission is not observed before the cue. -/
theorem claim_C2_counterexample :
    Ev.emitStart ∈ (start_recording st0 true none false).2
    ∧ Ev.playCue true ∈ (start_recording st0 true none false).2
    ∧ observedBefore Ev.emitStart (Ev.playCue true)
        (start_recording st0 true none false).2 = false
    ∧ observedBefore (Ev.playCue true) Ev.emitStart
        (start_recording st0 true none false).2 = true :=
  ⟨by decide, by decide, by decide, by decide⟩

/-- C2 (amended): the begin sequence sets the recording flag to true
first, then — if sound cues are enabled — plays the start cue before
applying muting, and emits the "recording started" notification last:
after the cue and after the mute attempt, exactly once. -/
theorem claim_C2 (st : RecState) (snd am : Bool)
    (mgr : Option MuteManager) :
    (start_recording st snd mgr am).1.is_recording = true
    ∧ (start_recording st snd mgr am).2.head? = some (Ev.setRecording true)
    ∧ countEv Ev.emitStart (start_recording st snd mgr am).2 = 1
    ∧ (snd = true →
        observedBefore (Ev.playCue true) Ev.emitStart
          (start_recording st snd mgr am).2 = true)
    ∧ (∀ m, mgr = some m → am = true →
        observedBefore Ev.muteAttempt Ev.emitStart
          (start_recording st snd mgr am).2 = true)
    ∧ (snd = true → ∀ m, mgr = some m → am = true →
        observedBefore (Ev.playCue true) Ev.muteAttempt
          (start_recording st snd mgr am).2 = true) := by
  refine ⟨rfl, ?_, start_emitStart_count _ _ _ _, ?_, ?_, ?_⟩
  · rcases mgr with _ | ⟨mo, uo⟩ <;> cases snd <;> cases am <;> rfl
  · rintro rfl
    rcases mgr with _ | ⟨mo, uo⟩ <;> cases am <;>
      simp [start_recording, observedBefore]
  · rintro m rfl rfl
    rcases m with ⟨mo, uo⟩
    cases snd <;> cases mo <;> simp [start_recording, observedBefore]
  · rintro rfl m rfl rfl
    rcases m with ⟨mo, uo⟩
    cases mo <;> simp [start_recording, observedBefore]

theorem claim_C2_witness :
    observedBefore (Ev.playCue true) Ev.emitStart
      (start_recording st0 true (some ⟨true, true⟩) true).2 = true
    ∧ observedBefore (Ev.playCue true) Ev.muteAttempt
      (start_recording st0 true (some ⟨true, true⟩) true).2 = true :=
  ⟨(claim_C2 st0 true true (some ⟨true, true⟩)).2.2.2.1 rfl,
   (claim_C2 st0 true true (some ⟨true, true⟩)).2.2.2.2.2 rfl ⟨true, true⟩ rfl rfl⟩

/-- C7: with sound cues and auto-mute enabled and the mute collaborator
present, the start cue is observed before the mute call, and on stop the
unmute call is observed before the stop cue. -/
theorem claim_C7 (st st2 : RecState) (m : MuteManager) :
    observedBefore (Ev.playCue true) Ev.muteAttempt
      (start_recording st true (some m) true).2 = true
    ∧ observedBefore Ev.unmuteAttempt (Ev.playCue false)
      (stop_recording st2 true (some m) true).2 = true := by
  rcases m with ⟨mo, uo⟩
  cases mo <;> cases uo <;>
    exact ⟨by simp [start_recording, observedBefore],
      by simp [stop_recording, observedBefore]⟩

/-- C8: a failing mute (resp. unmute) call is only logged as a warning:
the recording flag still reaches its new value, the enabled cue is still
played and the notification is still emitted. -/
theorem claim_C8 (st st2 : RecState) (snd : Bool) (m : MuteManager)
    (hmf : m.muteOk = false) (huf : m.unmuteOk = false) :
    (start_recording st snd (some m) true).1.is_recording = true
    ∧ countEv Ev.warnMuteFail (start_recording st snd (some m) true).2 = 1
    ∧ countEv Ev.emitStart (start_recording st snd (some m) true).2 = 1
    ∧ (snd = true →
        countEv (Ev.playCue true) (start_recording st snd (some m) true).2 = 1)
    ∧ (stop_recording st2 snd (some m) true).1.is_recording = false
    ∧ countEv Ev.warnUnmuteFail (stop_recording st2 snd (some m) true).2 = 1
    ∧ countEv Ev.emitStop (stop_recording st2 snd (some m) true).2 = 1
    ∧ (snd = true →
        countEv (Ev.playCue false)
          (stop_recording st2 snd (some m) true).2 = 1) := by
  rcases m with ⟨mo, uo⟩
  have hm : mo = false := hmf
  have hu : uo = false := huf
  subst hm
  subst hu
  cases snd <;>
    refine ⟨rfl, by simp [start_recording, countEv],
      by simp [start_recording, countEv], ?_, rfl,
      by simp [stop_recording, countEv],
      by simp [stop_recording, countEv], ?_⟩ <;>
    intro hs <;>
    first
      | exact absurd hs (by decide)
      | simp [start_recording, stop_recording, countEv]

theorem claim_C8_witness :
    countEv Ev.warnMuteFail
      (start_recording st0 true (some ⟨false, false⟩) true).2 = 1 :=
  (claim_C8 st0 st0 true ⟨false, false⟩ rfl rfl).2.1

/-- C10: both dimensions are clamped up to 48 before the resize, so the
overlay is never set smaller than 48x48; with no overlay window, nothing
is resized and the command still returns Ok. -/
theorem claim_C10 (present ok : Bool) (w h : Rat) :
    ((resize_overlay present ok w h).2
      = if present = true then [OvEv.setSize (max w 48) (max h 48)] else [])
    ∧ (48 : Rat) ≤ max w 48 ∧ (48 : Rat) ≤ max h 48
    ∧ (present = false →
        resize_overlay present ok w h = (Except.ok (), [])) := by
  refine ⟨?_, le_max_right _ _, le_max_right _ _, ?_⟩
  · cases present <;> cases ok <;> simp [resize_overlay]
  · rintro rfl
    cases ok <;> simp [resize_overlay]

theorem claim_C10_witness :
    resize_overlay false true 10 20 = (Except.ok (), []) :=
  (claim_C10 false true 10 20).2.2.2 rfl

end VoiceDictation
